import Mathlib

set_option maxRecDepth 40000

/-!
Verification development for the Flask sales-dashboard ingestion pipeline
(`backend/app.py`).  The tabular core is shallowly embedded: a table is a
list of header strings plus rows of cells, a cell is a string, a number, or
a blank (pandas NaN).  The functions `validate_dataframe`,
`detect_currency`, `standardize_column_names`, the coercion section of
`upload_file`, and the aggregation section of `generate_charts` are
translated into executable Lean definitions, and the claims about them are
settled as theorems below the definitions.
-/

namespace SalesDash

/-! ### Characters and strings

Python lowercasing/stripping restricted to ASCII, as used by
`str.lower`, `str.strip` and pandas `.str.strip()` on the headers. -/

/-- ASCII lowercase of one character (models Python `str.lower` on the
ASCII range, which is all the synonym tables use). -/
def lowChar (c : Char) : Char :=
  if 65 ≤ c.toNat ∧ c.toNat ≤ 90 then Char.ofNat (c.toNat + 32) else c

/-- Whitespace test for Python `str.strip` (space, tab, newline, CR). -/
def wsB (c : Char) : Bool :=
  c == ' ' || c == '\t' || c == '\n' || c == '\r'

/-- Lowercase a character list. -/
def lowerChars (l : List Char) : List Char := l.map lowChar

/-- Strip leading and trailing whitespace from a character list
(Python `str.strip`). -/
def stripChars (l : List Char) : List Char :=
  ((l.dropWhile wsB).reverse.dropWhile wsB).reverse

/-- Lowercase of a string. -/
def lowS (s : String) : String := ⟨lowerChars s.data⟩

/-- Stripped string. -/
def stripS (s : String) : String := ⟨stripChars s.data⟩

/-- Does list `n` occur as a contiguous sublist of `h`?  (Python `in` on
strings.) -/
def infixB (n : List Char) : List Char → Bool
  | [] => n.isEmpty
  | c :: h => n.isPrefixOf (c :: h) || infixB n h

/-- Does string `n` occur inside string `h`? -/
def containsS (n h : String) : Bool := infixB n.data h.data

/-! ### Numeric cell parsing

Models `pd.to_numeric` on a single string: optional surrounding
whitespace, optional sign, decimal digits with an optional fractional
part; the literal `nan` parses to NaN.  The result distinguishes parse
failure (`none`, `errors='raise'` would throw) from a parsed NaN
(`some none`) and a parsed value (`some (some q)`). -/

/-- Digit test. -/
def digB (c : Char) : Bool := 48 ≤ c.toNat && c.toNat ≤ 57

/-- Numeric value of a digit list (most significant first). -/
def digitsVal (l : List Char) : Nat :=
  l.foldl (fun a c => a * 10 + (c.toNat - 48)) 0

/-- Parse an unsigned decimal with optional fractional part. -/
def parseUnsigned (l : List Char) : Option ℚ :=
  let ip := l.takeWhile digB
  let rest := l.dropWhile digB
  match rest with
  | [] => if ip.isEmpty then none else some (digitsVal ip)
  | '.' :: fp =>
    if fp.all digB ∧ (ip ≠ [] ∨ fp ≠ []) then
      some ((digitsVal ip : ℚ) + (digitsVal fp : ℚ) / ((10 : ℚ) ^ fp.length))
    else none
  | _ => none

/-- Parse a signed decimal string the way `pd.to_numeric` treats a cell:
`none` = unparseable (raises), `some none` = NaN, `some (some q)` = value. -/
def parseNumS (s : String) : Option (Option ℚ) :=
  let l := stripChars s.data
  if lowerChars l = ['n', 'a', 'n'] then some none
  else
    match l with
    | '-' :: r => (parseUnsigned r).map (fun q => some (-q))
    | '+' :: r => (parseUnsigned r).map some
    | r => (parseUnsigned r).map some

/-! ### Dates

`pd.to_datetime` is modelled on ISO `YYYY-MM-DD` strings (the format the
scenarios and the stored records use). -/

/-- A calendar date. -/
structure Date where
  y : Nat
  m : Nat
  d : Nat
deriving DecidableEq

/-- Gregorian leap year. -/
def isLeap (y : Nat) : Bool :=
  (y % 4 == 0 && y % 100 != 0) || y % 400 == 0

/-- Days in a month. -/
def daysInMonth (y m : Nat) : Nat :=
  if m = 2 then (if isLeap y then 29 else 28)
  else if m = 4 ∨ m = 6 ∨ m = 9 ∨ m = 11 then 30
  else 31

/-- Split a character list on a separator character. -/
def splitSep (sep : Char) : List Char → List (List Char)
  | [] => [[]]
  | c :: r =>
    let t := splitSep sep r
    if c == sep then [] :: t
    else
      match t with
      | [] => [[c]]
      | h :: t' => (c :: h) :: t'

/-- Parse a strict `YYYY-MM-DD` date. -/
def parseDateS (s : String) : Option Date :=
  match splitSep '-' (stripChars s.data) with
  | [ys, ms, ds] =>
    if ys ≠ [] ∧ ms ≠ [] ∧ ds ≠ [] ∧ ys.all digB ∧ ms.all digB ∧ ds.all digB then
      let y := digitsVal ys; let m := digitsVal ms; let d := digitsVal ds
      if 1 ≤ m ∧ m ≤ 12 ∧ 1 ≤ d ∧ d ≤ daysInMonth y m then some ⟨y, m, d⟩
      else none
    else none
  | _ => none

/-- Left-pad a digit string with zeros. -/
def padZ (n len : Nat) : String :=
  let s := Nat.repr n
  ⟨List.replicate (len - s.length) '0' ++ s.data⟩

/-- Format a date as `YYYY-MM-DD` (models `.dt.strftime`). -/
def fmtDate (d : Date) : String :=
  padZ d.y 4 ++ "-" ++ padZ d.m 2 ++ "-" ++ padZ d.d 2

/-- Weekday of a Gregorian date by Zeller's congruence:
`0 = Saturday, 1 = Sunday, ..., 6 = Friday`. -/
def zeller (dt : Date) : Nat :=
  let m := if dt.m ≤ 2 then dt.m + 12 else dt.m
  let y := if dt.m ≤ 2 then dt.y - 1 else dt.y
  let k := y % 100
  let j := y / 100
  (dt.d + (13 * (m + 1)) / 5 + k + k / 4 + j / 4 + 5 * j) % 7

/-- Weekday name of a date (models `.dt.day_name()`). -/
def dayNameOf (dt : Date) : String :=
  (["Saturday", "Sunday", "Monday", "Tuesday", "Wednesday", "Thursday",
    "Friday"].getD (zeller dt) "Saturday")

/-! ### Cells -/

/-- One table cell: a string, a number, or a blank (pandas NaN, as produced
by `read_csv`/`read_excel` for empty cells). -/
inductive Cell where
  | str (s : String)
  | num (q : ℚ)
  | blank
deriving DecidableEq

/-- Whether `pd.to_numeric(column, errors='raise')` succeeds on a cell: a NaN
(blank) passes through, numbers pass through, strings must parse. -/
def numRaiseOkB (c : Cell) : Bool :=
  match c with
  | .blank => true
  | .num _ => true
  | .str s => (parseNumS s).isSome

/-- Models `pd.to_numeric(cell, errors='coerce')`: `none` is NaN (from a blank, a
failed parse, or a parsed NaN string). -/
def numCoerce (c : Cell) : Option ℚ :=
  match c with
  | .blank => none
  | .num q => some q
  | .str s =>
    match parseNumS s with
    | some (some q) => some q
    | _ => none

/-- Whether `pd.to_datetime(cell)` succeeds: NaN becomes NaT, numbers are read as
epoch offsets, strings must parse as dates. -/
def dateRaiseOkB (c : Cell) : Bool :=
  match c with
  | .blank => true
  | .num _ => true
  | .str s => (parseDateS s).isSome

/-- Models `pd.to_datetime(cell).strftime('%Y-%m-%d')` on one cell; `Except.error`
models a raised parse error, `some`/`none` the string/NaT outcome. -/
def dateCoerce (c : Cell) : Except Unit (Option String) :=
  match c with
  | .blank => Except.ok none
  | .num _ => Except.ok (some (fmtDate ⟨1970, 1, 1⟩))
  | .str s =>
    match parseDateS s with
    | some d => Except.ok (some (fmtDate d))
    | none => Except.error ()

/-- Models `astype(str).str.replace(r'[\$,]', '', regex=True)` followed by
`pd.to_numeric(errors='coerce')` on one cell: every `$` and `,` anywhere in
the string is removed before parsing.  A blank prints as `"nan"`, which
parses back to NaN; a number round-trips. -/
def moneyCoerce (c : Cell) : Option ℚ :=
  match c with
  | .blank => none
  | .num q => some q
  | .str s =>
    match parseNumS ⟨s.data.filter (fun c => !(c == '$' || c == ','))⟩ with
    | some (some q) => some q
    | _ => none

/-! ### Tables

A raw table: ordered header strings plus rows of cells.  Column access by
label takes the first column carrying that label, mirroring `df[name]` on
a frame with unique labels. -/

/-- A raw table. -/
structure Table where
  headers : List String
  rows : List (List Cell)
deriving DecidableEq

/-- Strip all header names (`df.columns = df.columns.str.strip()`). -/
def stripT (t : Table) : Table := ⟨t.headers.map stripS, t.rows⟩

/-- The cells of column `j`, one per row (rows too short read as blank). -/
def colCells (t : Table) (j : Nat) : List Cell :=
  t.rows.map (fun r => r.getD j Cell.blank)

/-- Index of the first column whose header satisfies `p`. -/
def findCol (t : Table) (p : String → Bool) : Option Nat :=
  t.headers.findIdx? p

/-! ### Header Normalizer (`standardize_column_names`) -/

/-- The fixed synonym table of `standardize_column_names`. -/
def synTable : List (String × String) :=
  [("price (ksh)", "price"), ("price(ksh)", "price"),
   ("total (ksh)", "total"), ("total(ksh)", "total"),
   ("price (usd)", "price"), ("price(usd)", "price"),
   ("total (usd)", "total"), ("total(usd)", "total"),
   ("product", "product"), ("item", "product"),
   ("description", "product"), ("name", "product"),
   ("quantity", "quantity"), ("qty", "quantity"), ("units", "quantity"),
   ("date", "date"), ("sale date", "date"),
   ("transaction date", "date"), ("order date", "date")]

/-- The code's `mapping.get(x.lower(), x.lower())` applied to a stripped header. -/
def stdName (h : String) : String :=
  let l := lowS (stripS h)
  (synTable.lookup l).getD l

/-- Models `standardize_column_names`: strip, lowercase, map through the synonym
table (rows untouched). -/
def standardize (t : Table) : Table := ⟨t.headers.map stdName, t.rows⟩

/-! ### Currency Detector (`detect_currency`) -/

/-- The two supported currencies. -/
inductive Currency where
  | USD
  | KSH
deriving DecidableEq

/-- Models `detect_currency`: KSH iff some header contains the substring `ksh`
case-insensitively, else USD. -/
def detectCurrency (headers : List String) : Currency :=
  if headers.any (fun h => containsS "ksh" (lowS h)) then .KSH else .USD

/-! ### Schema Validator (`validate_dataframe`) -/

/-- Synonyms accepted for the `date` field. -/
def dateCands : List String := ["date", "sale date", "transaction date", "order date"]

/-- Synonyms accepted for the `product` field. -/
def productCands : List String := ["product", "item", "description", "name"]

/-- Synonyms accepted for the `quantity` field. -/
def qtyCands : List String := ["quantity", "qty", "units"]

/-- First column (in column order) whose lowercased header is one of the
candidate names — the loop filling `found[std]`. -/
def findSyn (t : Table) (cands : List String) : Option Nat :=
  findCol t (fun h => cands.contains (lowS h))

/-- The `missing` list of `validate_dataframe`, in the fixed order
`date, product, quantity`. -/
def missingList (t : Table) : List String :=
  (if (findSyn t dateCands).isNone then ["date"] else []) ++
  (if (findSyn t productCands).isNone then ["product"] else []) ++
  (if (findSyn t qtyCands).isNone then ["quantity"] else [])

/-- Gate 2: some header contains `price` or `total` (case-insensitive). -/
def hasPriceOrTotalB (t : Table) : Bool :=
  t.headers.any (fun h => containsS "price" (lowS h) || containsS "total" (lowS h))

/-- Gate 3: the matched date column parses as dates and the matched
quantity column parses as numbers, for every row. -/
def parseGateB (t : Table) (jd jq : Nat) : Bool :=
  (colCells t jd).all dateRaiseOkB && (colCells t jq).all numRaiseOkB

/-- Models `validate_dataframe`: strips the headers, then evaluates the three
gates in order; `none` means the table passed, `some msg` is the exact
rejection message. -/
def validateMsg (t : Table) : Option String :=
  let t := stripT t
  match findSyn t dateCands, findSyn t productCands, findSyn t qtyCands with
  | some jd, some _, some jq =>
    if !hasPriceOrTotalB t then some "Missing price or total column"
    else if !parseGateB t jd jq then some "Invalid date or quantity format"
    else none
  | _, _, _ =>
    some ("Missing required columns: " ++ String.intercalate ", " (missingList t))

/-! ### Type Coercer (the coercion section of `upload_file`) -/

/-- One persisted record, as one entry of `df.to_dict(orient='records')`
restricted to the canonical fields.  `date` is the `strftime` output
(`none` models NaT→NaN), `product` the untouched raw cell; `price` is `0`
when no price-bearing column existed. -/
structure URec where
  date : Option String
  product : Cell
  quantity : ℚ
  price : ℚ
  total : ℚ
deriving DecidableEq

/-- Default record for indexed access. -/
def dRec : URec := ⟨none, Cell.blank, 0, 0, 0⟩

/-- The result of one accepted upload: detected currency plus the
canonical record sequence. -/
structure Upload where
  currency : Currency
  recs : List URec
deriving DecidableEq

/-- Ingestion errors of `upload_file`, in the order the code can produce
them. -/
inductive UErr where
  | validation (msg : String)
  | mappingFailed
  | processingFailed
deriving DecidableEq

instance {ε α : Type} [DecidableEq ε] [DecidableEq α] : DecidableEq (Except ε α) := by
  intro x y
  cases x <;> cases y
  case error.error a b =>
    exact decidable_of_iff (a = b) (by simp)
  case error.ok a b =>
    exact isFalse (by simp)
  case ok.error a b =>
    exact isFalse (by simp)
  case ok.ok a b =>
    exact decidable_of_iff (a = b) (by simp)

/-- Index of the first column whose (standardized) header contains
`price` — `next((c for c in df.columns if 'price' in c), None)`. -/
def priceColIdx (t2 : Table) : Option Nat :=
  findCol t2 (fun h => containsS "price" h)

/-- Index of the first column whose (standardized) header contains
`total`. -/
def totalColIdx (t2 : Table) : Option Nat :=
  findCol t2 (fun h => containsS "total" h)

/-- Index of the first column named exactly `quantity` after
standardization (`df['quantity']`). -/
def qtyColIdx (t2 : Table) : Option Nat :=
  findCol t2 (fun h => h == "quantity")

/-- Coerced quantity column:
`pd.to_numeric(df['quantity'], errors='coerce').fillna(0)`. -/
def qtyVals (t2 : Table) : List ℚ :=
  match qtyColIdx t2 with
  | some j => (colCells t2 j).map (fun c => (numCoerce c).getD 0)
  | none => []

/-- Coerced price column (strip `$`/`,`, parse, NaN→0); all zeros when no
price-bearing column exists (`df.get('price', 0)`). -/
def priceVals (t2 : Table) : List ℚ :=
  match priceColIdx t2 with
  | some j => (colCells t2 j).map (fun c => (moneyCoerce c).getD 0)
  | none => List.replicate t2.rows.length 0

/-- Parsed total column (strip `$`/`,`, parse, NaN→0); empty when no
total-bearing column exists. -/
def totalParsedVals (t2 : Table) : List ℚ :=
  match totalColIdx t2 with
  | some j => (colCells t2 j).map (fun c => (moneyCoerce c).getD 0)
  | none => []

/-- The recompute guard of line 387:
`'total' not in df.columns or df['total'].sum() == 0`. -/
def totalRecomputeB (t2 : Table) : Prop :=
  totalColIdx t2 = none ∨ (totalParsedVals t2).sum = 0

instance (t2 : Table) : Decidable (totalRecomputeB t2) := by
  unfold totalRecomputeB; infer_instance

/-- Final total column: the parsed totals, or `quantity * price` when no
total column exists or the parsed totals sum to zero. -/
def finalTotals (t2 : Table) : List ℚ :=
  if totalRecomputeB t2 then List.zipWith (· * ·) (qtyVals t2) (priceVals t2)
  else totalParsedVals t2

/-- Raw product column (first column named `product`). -/
def productCellsOf (t2 : Table) : List Cell :=
  match findCol t2 (fun h => h == "product") with
  | some j => colCells t2 j
  | none => []

/-- Date column coercion
(`pd.to_datetime(df['date']).dt.strftime('%Y-%m-%d')`); a raised parse
error aborts the upload. -/
def dateVals (t2 : Table) : Except Unit (List (Option String)) :=
  match findCol t2 (fun h => h == "date") with
  | some j => (colCells t2 j).mapM dateCoerce
  | none => Except.error ()

/-- Assemble the record list from the coerced columns, one record per
source row, order preserved. -/
def buildRecs (t2 : Table) (ds : List (Option String)) : List URec :=
  (List.range t2.rows.length).map (fun i =>
    ⟨ds.getD i none, (productCellsOf t2).getD i Cell.blank,
     (qtyVals t2).getD i 0, (priceVals t2).getD i 0, (finalTotals t2).getD i 0⟩)

/-- The required columns are present by exact name after standardization
(line 375). -/
def requiredPresentB (t2 : Table) : Bool :=
  ["date", "product", "quantity"].all (fun c => t2.headers.contains c)

/-- The ingestion pipeline of `upload_file` from the parsed dataframe to
the value persisted: strip headers, validate, detect currency, normalize
headers, coerce quantity/price/total, recompute `total` if needed, coerce
dates.  Every failure is terminal for the upload. -/
def coreUpload (t : Table) : Except UErr Upload :=
  let t1 := stripT t
  match validateMsg t1 with
  | some msg => Except.error (UErr.validation msg)
  | none =>
    let cur := detectCurrency t1.headers
    let t2 := standardize t1
    if requiredPresentB t2 then
      match dateVals t2 with
      | Except.error _ => Except.error UErr.processingFailed
      | Except.ok ds => Except.ok ⟨cur, buildRecs t2 ds⟩
    else Except.error UErr.mappingFailed

/-- The upload store, and persistence (`db.session.add` + `commit`):
a new `UserUpload` is appended only on the success path. -/
def processUpload (store : List Upload) (t : Table) :
    List Upload × Except UErr Upload :=
  match coreUpload t with
  | Except.error e => (store, Except.error e)
  | Except.ok u => (store ++ [u], Except.ok u)

/-! ### Sorting and grouping

`df.groupby(k)[v].sum()` groups and sorts by key; `Series.nlargest`
selects via a stable mergesort on the (already key-sorted) series when
`n < len`, and via an ascending sort followed by reversal when
`n >= len`.  Insertion sort below is stable, matching both. -/

/-- Insert `x` into `l`, before the first element `b` with `le x b`. -/
def insB (le : α → α → Bool) (x : α) : List α → List α
  | [] => [x]
  | b :: r => if le x b then x :: b :: r else b :: insB le x r

/-- Stable insertion sort by the boolean relation `le`. -/
def sortB (le : α → α → Bool) : List α → List α
  | [] => []
  | x :: r => insB le x (sortB le r)

/-- Lexicographic comparison of character lists by code point — Python's
`<` on strings, the order pandas sorts string group keys by. -/
def lexLeB : List Char → List Char → Bool
  | [], _ => true
  | _ :: _, [] => false
  | a :: as, b :: bs =>
    if a.toNat < b.toNat then true
    else if b.toNat < a.toNat then false
    else lexLeB as bs

/-- String order used for group keys. -/
def sLeB (a b : String) : Bool := lexLeB a.data b.data

/-- Strict string order: `≤` and distinct. -/
def sLt (a b : String) : Prop := sLeB a b = true ∧ a ≠ b

instance : DecidableRel sLt := by
  intro a b; unfold sLt; infer_instance

/-- Group keys in first-occurrence order (accumulator holds keys already
seen). -/
def uniqGo [DecidableEq κ] : List κ → List κ → List κ
  | [], _ => []
  | k :: r, seen =>
    if k ∈ seen then uniqGo r seen else k :: uniqGo r (k :: seen)

/-- The distinct keys of a pair list, first occurrence first. -/
def keysOf [DecidableEq κ] (l : List (κ × ℚ)) : List κ :=
  uniqGo (l.map Prod.fst) []

/-- Sum of the values attached to key `k`. -/
def keySum [DecidableEq κ] (l : List (κ × ℚ)) (k : κ) : ℚ :=
  ((l.filter (fun p => p.1 = k)).map Prod.snd).sum

/-- One summed entry per distinct key, keys in first-occurrence order. -/
def groupPairs [DecidableEq κ] (l : List (κ × ℚ)) : List (κ × ℚ) :=
  (keysOf l).map (fun k => (k, keySum l k))

/-- Models `groupby(key)[val].sum()` with string keys: summed entries sorted by
key (pandas `sort=True`). -/
def groupSumSorted (l : List (String × ℚ)) : List (String × ℚ) :=
  sortB (fun a b => sLeB a.1 b.1) (groupPairs l)

/-- Models `Series.nlargest(n, keep='first')`: when `n ≥ len`, pandas sorts the
series ascending (stable) and reverses; otherwise it applies a stable
mergesort descending and truncates. -/
def nlargestQ (n : Nat) (s : List (String × ℚ)) : List (String × ℚ) :=
  if s.length ≤ n then
    ((sortB (fun a b => decide (a.2 ≤ b.2)) s).reverse).take n
  else
    (sortB (fun a b => decide (b.2 ≤ a.2)) s).take n

/-! ### Aggregator (`generate_charts`) -/

/-- A canonical record as consumed by `generate_charts` (the stored
per-row dict with its five canonical fields re-coerced to date and
numbers). -/
structure CRec where
  date : Date
  product : String
  quantity : ℚ
  price : ℚ
  total : ℚ
deriving DecidableEq

/-- Line 140: if every total is null or every total is zero, replace the
total column by `quantity * price` before any view is computed. -/
def chartRecs (rs : List CRec) : List CRec :=
  if rs.all (fun r => r.total == 0) then
    rs.map (fun r => { r with total := r.quantity * r.price })
  else rs

/-- View 1 — revenue by product: `df.groupby('product')['total'].sum()`
(the chart then merely re-orders it for display). -/
def salesByProduct (rs : List CRec) : List (String × ℚ) :=
  groupSumSorted ((chartRecs rs).map (fun r => (r.product, r.total)))

/-- View 2 — monthly trend:
`df.groupby(df['date'].dt.to_period('M'))['total'].sum()`, months in
chronological order. -/
def monthlySales (rs : List CRec) : List ((Nat × Nat) × ℚ) :=
  sortB (fun a b => decide (a.1.1 < b.1.1 ∨ (a.1.1 = b.1.1 ∧ a.1.2 ≤ b.1.2)))
    (groupPairs ((chartRecs rs).map (fun r => ((r.date.y, r.date.m), r.total))))

/-- View 4 — top products by quantity:
`df.groupby('product')['quantity'].sum().nlargest(8)`. -/
def topProductsQty (rs : List CRec) : List (String × ℚ) :=
  nlargestQ 8 (groupSumSorted ((chartRecs rs).map (fun r => (r.product, r.quantity))))

/-- The fixed weekday reindexing order. -/
def weekOrder : List String :=
  ["Monday", "Tuesday", "Wednesday", "Thursday", "Friday", "Saturday", "Sunday"]

/-- View 5 — weekday revenue:
`df.groupby('day_of_week')['total'].sum().reindex(order, fill_value=0)`. -/
def weekdaySales (rs : List CRec) : List (String × ℚ) :=
  let g := groupSumSorted ((chartRecs rs).map (fun r => (dayNameOf r.date, r.total)))
  weekOrder.map (fun w => (w, (g.lookup w).getD 0))

/-! ### Lemmas about the sorting and grouping primitives -/


theorem insB_perm (le : α → α → Bool) (x : α) (l : List α) :
    List.Perm (insB le x l) (x :: l) := by
  induction l with
  | nil => exact List.Perm.refl _
  | cons b r ih =>
    unfold insB
    by_cases h : le x b = true
    · rw [if_pos h]
    · rw [if_neg h]
      exact (ih.cons b).trans (List.Perm.swap x b r)

theorem sortB_perm (le : α → α → Bool) (l : List α) :
    List.Perm (sortB le l) l := by
  induction l with
  | nil => exact List.Perm.refl _
  | cons x r ih => exact (insB_perm le x (sortB le r)).trans (ih.cons x)

theorem mem_insB {le : α → α → Bool} {x y : α} {l : List α} :
    y ∈ insB le x l ↔ y = x ∨ y ∈ l := by
  rw [(insB_perm le x l).mem_iff]
  simp

theorem mem_sortB {le : α → α → Bool} {y : α} {l : List α} :
    y ∈ sortB le l ↔ y ∈ l := (sortB_perm le l).mem_iff

theorem length_sortB (le : α → α → Bool) (l : List α) :
    (sortB le l).length = l.length := (sortB_perm le l).length_eq

/-- Inserting with `le` into a list already pairwise for `le` keeps it
pairwise, given totality and transitivity. -/
theorem insB_pairwise_le {le : α → α → Bool}
    (htot : ∀ a b, le a b = true ∨ le b a = true)
    (htrans : ∀ a b c, le a b = true → le b c = true → le a c = true)
    {x : α} {l : List α} (hl : l.Pairwise (fun a b => le a b = true)) :
    (insB le x l).Pairwise (fun a b => le a b = true) := by
  induction l with
  | nil => simp [insB]
  | cons b r ih =>
    rcases List.pairwise_cons.mp hl with ⟨hb, hr⟩
    unfold insB
    by_cases h : le x b = true
    · rw [if_pos h]
      refine List.pairwise_cons.mpr ⟨?_, hl⟩
      intro z hz
      rcases List.mem_cons.mp hz with rfl | hz
      · exact h
      · exact htrans x b z h (hb z hz)
    · rw [if_neg h]
      refine List.pairwise_cons.mpr ⟨?_, ih hr⟩
      intro z hz
      rcases mem_insB.mp hz with rfl | hz
      · rcases htot b z with hh | hh
        · exact hh
        · exact (h hh).elim
      · exact hb z hz

theorem sortB_pairwise_le {le : α → α → Bool}
    (htot : ∀ a b, le a b = true ∨ le b a = true)
    (htrans : ∀ a b c, le a b = true → le b c = true → le a c = true)
    (l : List α) :
    (sortB le l).Pairwise (fun a b => le a b = true) := by
  induction l with
  | nil => simp [sortB]
  | cons x r ih => exact insB_pairwise_le htot htrans ih

/-- Stability phrased on the combined order: sorting by the numeric key
`key` a list whose elements are pairwise `P` yields a list pairwise in the
order "strictly smaller key, or equal key and `P`" — equal-key elements
keep their input order. -/
theorem insB_pairwise_key {key : α → ℚ} {P : α → α → Prop} {x : α} {l : List α}
    (hl : l.Pairwise (fun a b => key a < key b ∨ (key a = key b ∧ P a b)))
    (hx : ∀ y ∈ l, P x y) :
    (insB (fun a b => decide (key a ≤ key b)) x l).Pairwise
      (fun a b => key a < key b ∨ (key a = key b ∧ P a b)) := by
  induction l with
  | nil => simp [insB]
  | cons b r ih =>
    rcases List.pairwise_cons.mp hl with ⟨hb, hr⟩
    unfold insB
    by_cases h : key x ≤ key b
    · rw [if_pos (by simpa using h)]
      refine List.pairwise_cons.mpr ⟨?_, hl⟩
      intro z hz
      rcases List.mem_cons.mp hz with rfl | hz
      · rcases lt_or_eq_of_le h with hlt | heq
        · exact Or.inl hlt
        · exact Or.inr ⟨heq, hx _ (List.mem_cons_self _ _)⟩
      · have hbz : key b ≤ key z := by
          rcases hb z hz with hh | hh
          · exact le_of_lt hh
          · exact le_of_eq hh.1
        rcases lt_or_eq_of_le (le_trans h hbz) with hlt | heq
        · exact Or.inl hlt
        · exact Or.inr ⟨heq, hx z (List.mem_cons_of_mem b hz)⟩
    · rw [if_neg (by simpa using h)]
      refine List.pairwise_cons.mpr
        ⟨?_, ih hr (fun y hy => hx y (List.mem_cons_of_mem b hy))⟩
      intro z hz
      rcases mem_insB.mp hz with rfl | hz
      · exact Or.inl (lt_of_not_le h)
      · exact hb z hz

theorem sortB_pairwise_key {key : α → ℚ} {P : α → α → Prop} {l : List α}
    (hl : l.Pairwise P) :
    (sortB (fun a b => decide (key a ≤ key b)) l).Pairwise
      (fun a b => key a < key b ∨ (key a = key b ∧ P a b)) := by
  induction l with
  | nil => simp [sortB]
  | cons x r ih =>
    rcases List.pairwise_cons.mp hl with ⟨hx, hr⟩
    exact insB_pairwise_key (ih hr) (fun y hy => hx y (mem_sortB.mp hy))

theorem mem_uniqGo [DecidableEq κ] (l : List κ) (k : κ) :
    ∀ seen, k ∈ uniqGo l seen ↔ k ∈ l ∧ k ∉ seen := by
  induction l with
  | nil => intro seen; simp [uniqGo]
  | cons h t ih =>
    intro seen
    unfold uniqGo
    by_cases hh : h ∈ seen
    · rw [if_pos hh, ih seen]
      constructor
      · rintro ⟨hk, hs⟩
        exact ⟨List.mem_cons_of_mem h hk, hs⟩
      · rintro ⟨hk, hs⟩
        rcases List.mem_cons.mp hk with rfl | hk
        · exact absurd hh hs
        · exact ⟨hk, hs⟩
    · rw [if_neg hh]
      constructor
      · intro hk
        rcases List.mem_cons.mp hk with rfl | hk
        · exact ⟨List.mem_cons_self k t, hh⟩
        · rcases (ih (h :: seen)).mp hk with ⟨h1, h2⟩
          exact ⟨List.mem_cons_of_mem h h1,
            fun hc => h2 (List.mem_cons_of_mem h hc)⟩
      · rintro ⟨hk, hs⟩
        rcases List.mem_cons.mp hk with rfl | hk
        · exact List.mem_cons_self k _
        · by_cases hkh : k = h
          · subst hkh
            exact List.mem_cons_self k _
          · refine List.mem_cons_of_mem h ((ih (h :: seen)).mpr ⟨hk, ?_⟩)
            intro hc
            exact (List.mem_cons.mp hc).elim hkh hs

theorem uniqGo_nodup [DecidableEq κ] (l : List κ) :
    ∀ seen, (uniqGo l seen).Nodup := by
  induction l with
  | nil => intro seen; simp [uniqGo]
  | cons h t ih =>
    intro seen
    unfold uniqGo
    by_cases hh : h ∈ seen
    · rw [if_pos hh]
      exact ih seen
    · rw [if_neg hh]
      refine List.nodup_cons.mpr ⟨?_, ih (h :: seen)⟩
      intro hc
      exact ((mem_uniqGo t h (h :: seen)).mp hc).2 (List.mem_cons_self h seen)

theorem mem_keysOf [DecidableEq κ] (l : List (κ × ℚ)) (k : κ) :
    k ∈ keysOf l ↔ k ∈ l.map Prod.fst := by
  unfold keysOf
  rw [mem_uniqGo]
  simp

theorem keysOf_nodup [DecidableEq κ] (l : List (κ × ℚ)) : (keysOf l).Nodup :=
  uniqGo_nodup _ _

theorem keySum_eq_zero [DecidableEq κ] {l : List (κ × ℚ)} {k : κ}
    (h : k ∉ l.map Prod.fst) : keySum l k = 0 := by
  unfold keySum
  have hnil : l.filter (fun p => p.1 = k) = [] := by
    rw [List.filter_eq_nil_iff]
    intro p hp
    simp only [decide_eq_true_eq]
    intro hc
    exact h (List.mem_map.mpr ⟨p, hp, hc⟩)
  rw [hnil]
  simp

theorem keySum_filter_ne [DecidableEq κ] (l : List (κ × ℚ)) (k k' : κ)
    (h : k' ≠ k) : keySum (l.filter (fun p => ¬ p.1 = k)) k' = keySum l k' := by
  unfold keySum
  rw [List.filter_filter]
  have heq : l.filter (fun a => decide (a.1 = k') && decide ¬ a.1 = k)
      = l.filter (fun p => decide (p.1 = k')) := by
    apply List.filter_congr
    intro a _
    by_cases h1 : a.1 = k'
    · simp [h1, h]
    · simp [h1]
  rw [heq]

theorem sum_filter_split (l : List (κ × ℚ)) (p : κ × ℚ → Bool) :
    ((l.filter p).map Prod.snd).sum
      + ((l.filter (fun x => !(p x))).map Prod.snd).sum
      = (l.map Prod.snd).sum := by
  induction l with
  | nil => simp
  | cons x r ih =>
    by_cases hx : p x = true
    · rw [List.filter_cons_of_pos hx, List.filter_cons_of_neg (by simp [hx])]
      simp only [List.map_cons, List.sum_cons]
      rw [add_assoc, ih]
    · rw [List.filter_cons_of_neg hx, List.filter_cons_of_pos (by simp [hx])]
      simp only [List.map_cons, List.sum_cons]
      rw [add_left_comm, ih]

/-- The grouped sums add up to the total value sum, for any duplicate-free
key list covering the pairs. -/
theorem sum_keySum [DecidableEq κ] (K : List κ) (l : List (κ × ℚ))
    (hnd : K.Nodup) (hcov : ∀ p ∈ l, p.1 ∈ K) :
    (K.map (keySum l)).sum = (l.map Prod.snd).sum := by
  induction K generalizing l with
  | nil =>
    have hl : l = [] := by
      cases l with
      | nil => rfl
      | cons p r => exact absurd (hcov p (List.mem_cons_self p r)) (by simp)
    simp [hl]
  | cons k K' ih =>
    rcases List.nodup_cons.mp hnd with ⟨hk, hnd'⟩
    have hmap : K'.map (keySum l)
        = K'.map (keySum (l.filter (fun p => ¬ p.1 = k))) := by
      apply List.map_congr_left
      intro k' hk'
      exact (keySum_filter_ne l k k' (fun hc => hk (hc ▸ hk'))).symm
    have hcov' : ∀ p ∈ l.filter (fun p => ¬ p.1 = k), p.1 ∈ K' := by
      intro p hp
      rcases List.mem_filter.mp hp with ⟨hpl, hpk⟩
      rcases List.mem_cons.mp (hcov p hpl) with hh | hh
      · exact absurd hh (by simpa using hpk)
      · exact hh
    rw [List.map_cons, List.sum_cons, hmap,
      ih (l.filter (fun p => ¬ p.1 = k)) hnd' hcov']
    have hfe : l.filter (fun p => ¬ p.1 = k)
        = l.filter (fun x => !(decide (x.1 = k))) := by
      apply List.filter_congr
      intro a _
      by_cases hh : a.1 = k
      · simp [hh]
      · simp [hh]
    unfold keySum
    rw [hfe]
    exact sum_filter_split l (fun p => decide (p.1 = k))

theorem groupPairs_map_fst [DecidableEq κ] (l : List (κ × ℚ)) :
    (groupPairs l).map Prod.fst = keysOf l := by
  unfold groupPairs
  rw [List.map_map]
  have hc : (Prod.fst ∘ fun k => (k, keySum l k)) = id := rfl
  rw [hc, List.map_id]

theorem mem_groupPairs [DecidableEq κ] {l : List (κ × ℚ)} {p : κ × ℚ} :
    p ∈ groupPairs l ↔ p.1 ∈ keysOf l ∧ p.2 = keySum l p.1 := by
  unfold groupPairs
  constructor
  · intro hp
    rcases List.mem_map.mp hp with ⟨k, hk, rfl⟩
    exact ⟨hk, rfl⟩
  · rintro ⟨hk, hv⟩
    refine List.mem_map.mpr ⟨p.1, hk, ?_⟩
    rw [← hv]

/-- Value sum of the grouped series equals the value sum of the raw
pairs. -/
theorem sum_groupPairs [DecidableEq κ] (l : List (κ × ℚ)) :
    ((groupPairs l).map Prod.snd).sum = (l.map Prod.snd).sum := by
  unfold groupPairs
  rw [List.map_map]
  have hc : (Prod.snd ∘ fun k => (k, keySum l k)) = keySum l := rfl
  rw [hc]
  exact sum_keySum (keysOf l) l (keysOf_nodup l)
    (fun p hp => (mem_keysOf l p.1).mpr (List.mem_map.mpr ⟨p, hp, rfl⟩))

theorem sum_sortB_snd (le : κ × ℚ → κ × ℚ → Bool) (l : List (κ × ℚ)) :
    ((sortB le l).map Prod.snd).sum = (l.map Prod.snd).sum :=
  ((sortB_perm le l).map Prod.snd).sum_eq

theorem lookup_eq_some_of_mem [DecidableEq κ] {l : List (κ × ℚ)} {k : κ} {v : ℚ}
    (hmem : (k, v) ∈ l) (hnd : (l.map Prod.fst).Nodup) :
    l.lookup k = some v := by
  induction l with
  | nil => cases hmem
  | cons p r ih =>
    cases p with
    | mk pk pv =>
      rw [List.map_cons] at hnd
      rcases List.nodup_cons.mp hnd with ⟨hp, hr⟩
      rcases List.mem_cons.mp hmem with heq | hmem2
      · cases heq
        simp [List.lookup]
      · have hne : k ≠ pk := by
          rintro rfl
          exact hp (List.mem_map.mpr ⟨(k, v), hmem2, rfl⟩)
        have hbe : (k == pk) = false := by
          simpa using hne
        rw [List.lookup]
        rw [hbe]
        exact ih hmem2 hr

theorem lookup_eq_none_of_not_mem [DecidableEq κ] {l : List (κ × ℚ)} {k : κ}
    (h : k ∉ l.map Prod.fst) : l.lookup k = none := by
  induction l with
  | nil => rfl
  | cons p r ih =>
    cases p with
    | mk pk pv =>
      have hne : k ≠ pk := fun hc => h (by simp [hc])
      have hbe : (k == pk) = false := by
        simpa using hne
      rw [List.lookup]
      rw [hbe]
      refine ih ?_
      intro hc
      exact h (List.mem_cons_of_mem _ hc)

/-! ### String lemmas: substring containment survives stripping

`detect_currency` runs on the stripped headers; the claims speak about
the original ones.  Stripping only removes boundary whitespace and `ksh`
contains none, so containment is unchanged. -/

theorem infixB_iff (n l : List Char) : infixB n l = true ↔ n <:+: l := by
  induction l with
  | nil =>
    unfold infixB
    cases n <;> simp
  | cons c h ih =>
    unfold infixB
    rw [Bool.or_eq_true, List.isPrefixOf_iff_prefix, ih, List.infix_cons_iff]

theorem infix_ws_left {n p m : List Char}
    (hp : ∀ c ∈ p, wsB c = true) (hn : n ≠ []) (hnw : ∀ c ∈ n, wsB c = false) :
    n <:+: p ++ m ↔ n <:+: m := by
  induction p with
  | nil => simp
  | cons c p' ih =>
    have hc : wsB c = true := hp c (List.mem_cons_self _ _)
    rw [List.cons_append, List.infix_cons_iff]
    constructor
    · rintro (hpre | hinf)
      · cases n with
        | nil => exact absurd rfl hn
        | cons n0 n' =>
          rcases List.cons_prefix_cons.mp hpre with ⟨rfl, _⟩
          rw [hnw n0 (List.mem_cons_self _ _)] at hc
          cases hc
      · exact (ih (fun d hd => hp d (List.mem_cons_of_mem c hd))).mp hinf
    · intro hinf
      exact Or.inr ((ih (fun d hd => hp d (List.mem_cons_of_mem c hd))).mpr hinf)

theorem infix_ws_middle {n p m s : List Char}
    (hp : ∀ c ∈ p, wsB c = true) (hs : ∀ c ∈ s, wsB c = true)
    (hn : n ≠ []) (hnw : ∀ c ∈ n, wsB c = false) :
    n <:+: p ++ m ++ s ↔ n <:+: m := by
  have hrev : ∀ c ∈ n.reverse, wsB c = false :=
    fun c hc => hnw c (List.mem_reverse.mp hc)
  have hnrev : n.reverse ≠ [] := by
    intro hc
    exact hn (by simpa using congrArg List.reverse hc)
  rw [List.append_assoc, infix_ws_left hp hn hnw]
  rw [← List.reverse_infix, List.reverse_append]
  rw [infix_ws_left (fun c hc => hs c (List.mem_reverse.mp hc)) hnrev hrev]
  exact List.reverse_infix

theorem lowChar_of_ws {c : Char} (h : wsB c = true) : lowChar c = c := by
  have hc : c = ' ' ∨ c = '\t' ∨ c = '\n' ∨ c = '\r' := by
    unfold wsB at h
    rcases Bool.or_eq_true _ _ |>.mp h with h1 | h4
    · rcases Bool.or_eq_true _ _ |>.mp h1 with h2 | h3
      · rcases Bool.or_eq_true _ _ |>.mp h2 with h5 | h6
        · exact Or.inl (by simpa using h5)
        · exact Or.inr (Or.inl (by simpa using h6))
      · exact Or.inr (Or.inr (Or.inl (by simpa using h3)))
    · exact Or.inr (Or.inr (Or.inr (by simpa using h4)))
  rcases hc with rfl | rfl | rfl | rfl <;> decide

/-- The decomposition produced by stripping: the original character list
is all-whitespace padding around its stripped core. -/
theorem strip_decomp (l : List Char) :
    ∃ p s, l = p ++ stripChars l ++ s ∧
      (∀ c ∈ p, wsB c = true) ∧ (∀ c ∈ s, wsB c = true) := by
  refine ⟨l.takeWhile wsB, ((l.dropWhile wsB).reverse.takeWhile wsB).reverse,
    ?_, fun c hc => List.mem_takeWhile_imp hc,
    fun c hc => List.mem_takeWhile_imp (List.mem_reverse.mp hc)⟩
  unfold stripChars
  have h1 : l.takeWhile wsB ++ l.dropWhile wsB = l :=
    List.takeWhile_append_dropWhile wsB l
  have h2 : (l.dropWhile wsB).reverse.takeWhile wsB
      ++ (l.dropWhile wsB).reverse.dropWhile wsB = (l.dropWhile wsB).reverse :=
    List.takeWhile_append_dropWhile wsB (l.dropWhile wsB).reverse
  have h3 : l.dropWhile wsB
      = ((l.dropWhile wsB).reverse.dropWhile wsB).reverse
        ++ ((l.dropWhile wsB).reverse.takeWhile wsB).reverse := by
    have h4 := congrArg List.reverse h2
    rw [List.reverse_append] at h4
    rw [h4, List.reverse_reverse]
  rw [List.append_assoc, ← h3, h1]

/-- The `ksh`-containment test (case-insensitive) is the same on a header and on
its stripped form. -/
theorem containsKsh_strip (h : String) :
    containsS "ksh" (lowS (stripS h)) = containsS "ksh" (lowS h) := by
  rw [Bool.eq_iff_iff]
  unfold containsS lowS stripS
  rw [infixB_iff, infixB_iff]
  show lowerChars "ksh".data <:+: lowerChars (stripChars h.data)
    ↔ lowerChars "ksh".data <:+: lowerChars h.data
  rcases strip_decomp h.data with ⟨p, s, hdec, hp, hs⟩
  have hmap : lowerChars h.data
      = lowerChars p ++ lowerChars (stripChars h.data) ++ lowerChars s := by
    conv_lhs => rw [hdec]
    unfold lowerChars
    rw [List.map_append, List.map_append]
  rw [hmap]
  have hlp : ∀ c ∈ lowerChars p, wsB c = true := by
    intro c hc
    rcases List.mem_map.mp hc with ⟨c0, hc0, rfl⟩
    rw [lowChar_of_ws (hp c0 hc0)]
    exact hp c0 hc0
  have hls : ∀ c ∈ lowerChars s, wsB c = true := by
    intro c hc
    rcases List.mem_map.mp hc with ⟨c0, hc0, rfl⟩
    rw [lowChar_of_ws (hs c0 hc0)]
    exact hs c0 hc0
  exact (infix_ws_middle hlp hls (by decide) (by decide)).symm

/-! ### Pipeline support lemmas -/

/-- Inversion of a successful upload: validation passed, the mapping check
passed, the date coercion succeeded, and the result is the detected
currency plus the built records. -/
theorem coreUpload_ok {t : Table} {u : Upload} (h : coreUpload t = Except.ok u) :
    validateMsg (stripT t) = none ∧
    requiredPresentB (standardize (stripT t)) = true ∧
    ∃ ds, dateVals (standardize (stripT t)) = Except.ok ds ∧
      u = ⟨detectCurrency (stripT t).headers,
           buildRecs (standardize (stripT t)) ds⟩ := by
  simp only [coreUpload] at h
  cases hv : validateMsg (stripT t) with
  | some msg =>
    rw [hv] at h
    cases h
  | none =>
    rw [hv] at h
    by_cases hreq : requiredPresentB (standardize (stripT t)) = true
    · rw [if_pos hreq] at h
      cases hds : dateVals (standardize (stripT t)) with
      | error e =>
        rw [hds] at h
        cases h
      | ok ds =>
        rw [hds] at h
        cases h
        exact ⟨rfl, hreq, ds, rfl, rfl⟩
    · rw [if_neg hreq] at h
      cases h

theorem getD_range_map {n i : Nat} (f : Nat → α) (d : α) (hi : i < n) :
    ((List.range n).map f).getD i d = f i := by
  rw [List.getD_eq_getElem _ _ (by simpa using hi)]
  simp

/-- The record built for row `i`. -/
theorem buildRecs_getD {t2 : Table} {ds : List (Option String)} {i : Nat}
    (hi : i < t2.rows.length) :
    (buildRecs t2 ds).getD i dRec
      = ⟨ds.getD i none, (productCellsOf t2).getD i Cell.blank,
         (qtyVals t2).getD i 0, (priceVals t2).getD i 0,
         (finalTotals t2).getD i 0⟩ := by
  unfold buildRecs
  exact getD_range_map _ _ hi

theorem length_buildRecs (t2 : Table) (ds : List (Option String)) :
    (buildRecs t2 ds).length = t2.rows.length := by
  simp [buildRecs]

theorem length_colCells (t : Table) (j : Nat) :
    (colCells t j).length = t.rows.length := by
  simp [colCells]

theorem length_qtyVals {t2 : Table} {j : Nat} (hj : qtyColIdx t2 = some j) :
    (qtyVals t2).length = t2.rows.length := by
  unfold qtyVals
  rw [hj]
  simp [colCells]

theorem length_priceVals (t2 : Table) :
    (priceVals t2).length = t2.rows.length := by
  unfold priceVals
  cases hp : priceColIdx t2 <;> simp [colCells]

theorem length_totalParsedVals {t2 : Table} {j : Nat}
    (hj : totalColIdx t2 = some j) :
    (totalParsedVals t2).length = t2.rows.length := by
  unfold totalParsedVals
  rw [hj]
  simp [colCells]

theorem getD_zipWith_mul {as bs : List ℚ} {i : Nat}
    (ha : i < as.length) (hb : i < bs.length) :
    (List.zipWith (· * ·) as bs).getD i 0 = as.getD i 0 * bs.getD i 0 := by
  rw [List.getD_eq_getElem _ _ (by rw [List.length_zipWith]; omega),
    List.getElem_zipWith, List.getD_eq_getElem _ _ ha, List.getD_eq_getElem _ _ hb]

theorem getD_map_col {t : Table} {j i : Nat} (f : Cell → ℚ)
    (hi : i < t.rows.length) :
    ((colCells t j).map f).getD i 0 = f ((colCells t j).getD i Cell.blank) := by
  have hlen : i < (colCells t j).length := by
    rw [length_colCells]
    exact hi
  rw [List.getD_eq_getElem _ _ (by simpa using hlen), List.getElem_map,
    List.getD_eq_getElem _ _ hlen]

theorem qtyColIdx_isSome {t2 : Table} (hreq : requiredPresentB t2 = true) :
    ∃ j, qtyColIdx t2 = some j := by
  have hmem : "quantity" ∈ t2.headers := by
    unfold requiredPresentB at hreq
    simp only [List.all_cons, List.all_nil, Bool.and_eq_true] at hreq
    have := hreq.2.2.1
    simpa using this
  have hsome : (t2.headers.findIdx? (fun h => h == "quantity")).isSome := by
    rw [List.findIdx?_isSome]
    exact List.any_eq_true.mpr ⟨_, hmem, by simp⟩
  rcases Option.isSome_iff_exists.mp hsome with ⟨j, hj⟩
  exact ⟨j, hj⟩

/-! ### The string key order is a total order -/

theorem lexLeB_total (a : List Char) : ∀ b, lexLeB a b = true ∨ lexLeB b a = true := by
  induction a with
  | nil => intro b; exact Or.inl rfl
  | cons x xs ih =>
    intro b
    cases b with
    | nil => exact Or.inr rfl
    | cons y ys =>
      unfold lexLeB
      rcases Nat.lt_trichotomy x.toNat y.toNat with h | h | h
      · left
        rw [if_pos h]
      · have h1 : ¬ x.toNat < y.toNat := by omega
        have h2 : ¬ y.toNat < x.toNat := by omega
        rw [if_neg h1, if_neg h2, if_neg h2, if_neg h1]
        exact ih ys
      · right
        rw [if_pos h]

theorem lexLeB_trans (a : List Char) :
    ∀ b c, lexLeB a b = true → lexLeB b c = true → lexLeB a c = true := by
  induction a with
  | nil => intro b c _ _; rfl
  | cons x xs ih =>
    intro b c hab hbc
    cases b with
    | nil => cases hab
    | cons y ys =>
      cases c with
      | nil => cases hbc
      | cons z zs =>
        unfold lexLeB at hab hbc ⊢
        by_cases h1 : x.toNat < y.toNat
        · by_cases h2 : y.toNat < z.toNat
          · rw [if_pos (by omega)]
          · by_cases h3 : z.toNat < y.toNat
            · rw [if_neg h2, if_pos h3] at hbc
              cases hbc
            · rw [if_pos (by omega)]
        · by_cases h4 : y.toNat < x.toNat
          · rw [if_neg h1, if_pos h4] at hab
            cases hab
          · rw [if_neg h1, if_neg h4] at hab
            by_cases h2 : y.toNat < z.toNat
            · rw [if_pos (by omega)]
            · by_cases h3 : z.toNat < y.toNat
              · rw [if_neg h2, if_pos h3] at hbc
                cases hbc
              · rw [if_neg h2, if_neg h3] at hbc
                rw [if_neg (by omega), if_neg (by omega)]
                exact ih ys zs hab hbc

theorem lexLeB_antisymm (a : List Char) :
    ∀ b, lexLeB a b = true → lexLeB b a = true → a = b := by
  induction a with
  | nil =>
    intro b _ hba
    cases b with
    | nil => rfl
    | cons y ys => cases hba
  | cons x xs ih =>
    intro b hab hba
    cases b with
    | nil => cases hab
    | cons y ys =>
      unfold lexLeB at hab hba
      by_cases h1 : x.toNat < y.toNat
      · rw [if_neg (by omega), if_pos h1] at hba
        cases hba
      · by_cases h2 : y.toNat < x.toNat
        · rw [if_neg h1, if_pos h2] at hab
          cases hab
        · rw [if_neg h1, if_neg h2] at hab
          rw [if_neg h2, if_neg h1] at hba
          have hn : x.toNat = y.toNat := by omega
          have hxy : x = y := Char.ext (UInt32.ext hn)
          rw [hxy, ih ys hab hba]

theorem sLeB_total (a b : String) : sLeB a b = true ∨ sLeB b a = true :=
  lexLeB_total a.data b.data

theorem sLeB_trans (a b c : String) (h1 : sLeB a b = true) (h2 : sLeB b c = true) :
    sLeB a c = true :=
  lexLeB_trans a.data b.data c.data h1 h2

theorem sLeB_antisymm {a b : String} (h1 : sLeB a b = true) (h2 : sLeB b a = true) :
    a = b :=
  String.ext (lexLeB_antisymm a.data b.data h1 h2)

/-- A `≤`-sorted pair list with duplicate-free keys is strictly sorted. -/
theorem pairwise_fst_sLt {l : List (String × ℚ)}
    (h1 : l.Pairwise (fun a b => sLeB a.1 b.1 = true))
    (h2 : (l.map Prod.fst).Nodup) :
    l.Pairwise (fun a b => sLt a.1 b.1) := by
  have h3 : l.Pairwise (fun a b => a.1 ≠ b.1) := List.pairwise_map.mp h2
  exact (h1.and h3).imp (fun hab => ⟨hab.1, hab.2⟩)

/-- The grouped-and-key-sorted series is strictly sorted by key. -/
theorem groupSumSorted_pairwise (l : List (String × ℚ)) :
    (groupSumSorted l).Pairwise (fun a b => sLt a.1 b.1) := by
  unfold groupSumSorted
  apply pairwise_fst_sLt
  · exact sortB_pairwise_le (fun a b => sLeB_total a.1 b.1)
      (fun a b c h1 h2 => sLeB_trans a.1 b.1 c.1 h1 h2) (groupPairs l)
  · refine (((sortB_perm _ (groupPairs l)).map Prod.fst).nodup_iff).mpr ?_
    rw [groupPairs_map_fst]
    exact keysOf_nodup l

/-- Keys of the sorted grouped series are the distinct keys. -/
theorem groupSumSorted_mem {l : List (String × ℚ)} {p : String × ℚ} :
    p ∈ groupSumSorted l ↔ p.1 ∈ keysOf l ∧ p.2 = keySum l p.1 := by
  unfold groupSumSorted
  rw [mem_sortB, mem_groupPairs]

theorem groupSumSorted_nodup_fst (l : List (String × ℚ)) :
    ((groupSumSorted l).map Prod.fst).Nodup := by
  unfold groupSumSorted
  refine (((sortB_perm _ (groupPairs l)).map Prod.fst).nodup_iff).mpr ?_
  rw [groupPairs_map_fst]
  exact keysOf_nodup l

theorem length_groupSumSorted (l : List (String × ℚ)) :
    (groupSumSorted l).length = (keysOf l).length := by
  unfold groupSumSorted
  rw [length_sortB]
  unfold groupPairs
  rw [List.length_map]

/-- The reindex read-back: looking a key up in the sorted grouped series
and defaulting to `0` yields exactly the key's summed value. -/
theorem lookup_groupSumSorted (l : List (String × ℚ)) (k : String) :
    ((groupSumSorted l).lookup k).getD 0 = keySum l k := by
  by_cases hk : k ∈ keysOf l
  · have hmem : (k, keySum l k) ∈ groupSumSorted l :=
      groupSumSorted_mem.mpr ⟨hk, rfl⟩
    rw [lookup_eq_some_of_mem hmem (groupSumSorted_nodup_fst l)]
    rfl
  · have hnm : k ∉ (groupSumSorted l).map Prod.fst := by
      intro hc
      rcases List.mem_map.mp hc with ⟨p, hp, rfl⟩
      exact hk (groupSumSorted_mem.mp hp).1
    rw [lookup_eq_none_of_not_mem hnm]
    have hkl : k ∉ l.map Prod.fst := fun hc => hk ((mem_keysOf l k).mpr hc)
    rw [Option.getD_none, keySum_eq_zero hkl]

/-- Grouped sum over mapped record pairs is a filtered sum over the
records. -/
theorem keySum_map_pairs (rs : List CRec) (g : CRec → String) (v : CRec → ℚ)
    (k : String) :
    keySum (rs.map (fun r => (g r, v r))) k
      = ((rs.filter (fun r => decide (g r = k))).map v).sum := by
  unfold keySum
  rw [List.filter_map, List.map_map]
  rfl

/-! ### Validator inversion and column alignment -/

/-- Shorthand for the table the Type Coercer works on. -/
@[reducible] def t2Of (t : Table) : Table := standardize (stripT t)

theorem missingList_eq_nil_iff (t : Table) :
    missingList t = [] ↔
      (findSyn t dateCands).isSome ∧ (findSyn t productCands).isSome
        ∧ (findSyn t qtyCands).isSome := by
  unfold missingList
  cases findSyn t dateCands <;> cases findSyn t productCands <;>
    cases findSyn t qtyCands <;> simp

/-- A validator pass means: all three fields matched, a price/total header
exists, and both parse checks succeeded. -/
theorem validateMsg_none {t : Table} (h : validateMsg t = none) :
    ∃ jd jp jq, findSyn (stripT t) dateCands = some jd ∧
      findSyn (stripT t) productCands = some jp ∧
      findSyn (stripT t) qtyCands = some jq ∧
      hasPriceOrTotalB (stripT t) = true ∧
      parseGateB (stripT t) jd jq = true := by
  simp only [validateMsg] at h
  cases hd : findSyn (stripT t) dateCands with
  | none =>
    rw [hd] at h
    exact Option.noConfusion h
  | some jd =>
    rw [hd] at h
    cases hp : findSyn (stripT t) productCands with
    | none =>
      rw [hp] at h
      exact Option.noConfusion h
    | some jp =>
      rw [hp] at h
      cases hq : findSyn (stripT t) qtyCands with
      | none =>
        rw [hq] at h
        exact Option.noConfusion h
      | some jq =>
        rw [hq] at h
        replace h : (if (!hasPriceOrTotalB (stripT t)) = true
            then some "Missing price or total column"
            else if (!parseGateB (stripT t) jd jq) = true
            then some "Invalid date or quantity format"
            else (none : Option String)) = none := h
        cases hpt : hasPriceOrTotalB (stripT t) with
        | false =>
          rw [hpt] at h
          exact Option.noConfusion h
        | true =>
          rw [hpt] at h
          cases hg : parseGateB (stripT t) jd jq with
          | false =>
            rw [hg] at h
            exact Option.noConfusion h
          | true =>
            exact ⟨jd, jp, jq, rfl, rfl, rfl, rfl, hg⟩

theorem lookup_some_mem {l : List (String × String)} {k : String} {v : String}
    (h : l.lookup k = some v) : (k, v) ∈ l := by
  induction l with
  | nil => cases h
  | cons p r ih =>
    cases p with
    | mk pk pv =>
      rw [List.lookup] at h
      cases hbe : k == pk with
      | true =>
        rw [hbe] at h
        cases h
        have hk : k = pk := by simpa using hbe
        rw [hk]
        exact List.mem_cons_self _ _
      | false =>
        rw [hbe] at h
        exact List.mem_cons_of_mem _ (ih h)

/-- The synonym table maps a (lowercased, stripped) header to `quantity`
exactly when it is one of the quantity synonyms. -/
theorem synLookup_eq_quantity (x : String) :
    (synTable.lookup x).getD x = "quantity" ↔ x ∈ qtyCands := by
  constructor
  · intro hq
    cases hl : synTable.lookup x with
    | some v =>
      rw [hl] at hq
      have hv : v = "quantity" := by simpa using hq
      subst hv
      have hmem := lookup_some_mem hl
      unfold synTable at hmem
      simp only [List.mem_cons, List.not_mem_nil, or_false, Prod.mk.injEq] at hmem
      unfold qtyCands
      rcases hmem with h | h | h | h | h | h | h | h | h | h | h | h | h | h | h | h | h | h | h <;>
        first
        | (exact absurd h.2 (by decide))
        | (rw [h.1]; simp)
    | none =>
      rw [hl] at hq
      rw [Option.getD_none] at hq
      rw [hq]
      unfold qtyCands
      simp
  · intro hx
    unfold qtyCands at hx
    simp only [List.mem_cons, List.not_mem_nil, or_false] at hx
    rcases hx with rfl | rfl | rfl <;> decide

/-- The column the validator checked is the column the coercer reads:
`quantity` synonym matching (on stripped headers) and the post-rename
lookup of the literal `quantity` pick the same column index. -/
theorem findSyn_qty_eq_qtyColIdx (t1 : Table) :
    findSyn (stripT t1) qtyCands = qtyColIdx (standardize t1) := by
  simp only [findSyn, findCol, stripT, qtyColIdx, standardize]
  rw [List.findIdx?_map, List.findIdx?_map]
  congr 1
  funext h
  show qtyCands.contains (lowS (stripS h)) = (stdName h == "quantity")
  rw [Bool.eq_iff_iff]
  constructor
  · intro hc
    have hx : lowS (stripS h) ∈ qtyCands := by simpa using hc
    have hs := (synLookup_eq_quantity (lowS (stripS h))).mpr hx
    unfold stdName
    simpa using hs
  · intro hb
    have hs : stdName h = "quantity" := by simpa using hb
    unfold stdName at hs
    have hx := (synLookup_eq_quantity (lowS (stripS h))).mp hs
    simpa using hx

/-! ### Concrete tables and records used by witnesses and
counterexamples -/

/-- Scenario A: a KSH-annotated price header. -/
def tKsh : Table :=
  ⟨["Date", "Item", "Qty", "Price (KSH)"],
   [[Cell.str "2024-01-05", Cell.str "Widget", Cell.num 3, Cell.num 10]]⟩

/-- Scenario D (price of the first row changed to 60 so that keeping and
recomputing differ): totals `$100`, `$0` with nonzero sum. -/
def tScenD : Table :=
  ⟨["Date", "Product", "Quantity", "Price", "Total"],
   [[Cell.str "2024-01-05", Cell.str "Widget", Cell.num 2, Cell.num 60,
     Cell.str "$100"],
    [Cell.str "2024-01-06", Cell.str "Gadget", Cell.num 5, Cell.num 0,
     Cell.str "$0"]]⟩

/-- The upload `tScenD` produces. -/
def uScenD : Upload :=
  ⟨Currency.USD,
   [⟨some "2024-01-05", Cell.str "Widget", 2, 60, 100⟩,
    ⟨some "2024-01-06", Cell.str "Gadget", 5, 0, 0⟩]⟩

/-- Scenario E: an all-zero total column. -/
def tScenE : Table :=
  ⟨["Date", "Product", "Quantity", "Price", "Total"],
   [[Cell.str "2024-01-05", Cell.str "W", Cell.num 2, Cell.num 50, Cell.num 0],
    [Cell.str "2024-01-06", Cell.str "G", Cell.num 5, Cell.num 20, Cell.num 0]]⟩

/-- The upload `tScenE` produces (totals recomputed). -/
def uScenE : Upload :=
  ⟨Currency.USD,
   [⟨some "2024-01-05", Cell.str "W", 2, 50, 100⟩,
    ⟨some "2024-01-06", Cell.str "G", 5, 20, 100⟩]⟩

/-- Scenario C: no quantity column. -/
def tMissQ : Table :=
  ⟨["Date", "Product"], [[Cell.str "2024-01-05", Cell.str "W"]]⟩

/-- A price cell with an interior comma and a trailing dollar sign. -/
def tComma : Table :=
  ⟨["Date", "Product", "Quantity", "Price"],
   [[Cell.str "2024-01-05", Cell.str "W", Cell.num 1, Cell.str "1,234$"]]⟩

/-- The upload `tComma` produces. -/
def uComma : Upload :=
  ⟨Currency.USD, [⟨some "2024-01-05", Cell.str "W", 1, 1234, 1234⟩]⟩

/-- A table with a blank quantity cell. -/
def tBlankQ : Table :=
  ⟨["Date", "Product", "Quantity", "Price"],
   [[Cell.str "2024-01-05", Cell.str "W", Cell.blank, Cell.num 5]]⟩

/-- The upload `tBlankQ` produces: the blank quantity became `0`. -/
def uBlankQ : Upload :=
  ⟨Currency.USD, [⟨some "2024-01-05", Cell.str "W", 0, 5, 0⟩]⟩

/-! ### The claims -/

/-- Claim C3: the Schema Validator evaluates its gates in a fixed order
with a distinct rejection each — (1) missing required fields, named
exactly, (2) no price/total-bearing header, (3) unparseable date or
quantity cells; otherwise it passes. -/
theorem claim_C3_validator_gate_order (t : Table) :
    (missingList (stripT t) ≠ [] →
      validateMsg t = some ("Missing required columns: "
        ++ String.intercalate ", " (missingList (stripT t)))) ∧
    (missingList (stripT t) = [] → hasPriceOrTotalB (stripT t) = false →
      validateMsg t = some "Missing price or total column") ∧
    (∀ jd jp jq, findSyn (stripT t) dateCands = some jd →
      findSyn (stripT t) productCands = some jp →
      findSyn (stripT t) qtyCands = some jq →
      hasPriceOrTotalB (stripT t) = true →
      (parseGateB (stripT t) jd jq = false →
        validateMsg t = some "Invalid date or quantity format") ∧
      (parseGateB (stripT t) jd jq = true → validateMsg t = none)) := by
  refine ⟨?_, ?_, ?_⟩
  · intro hmiss
    simp only [validateMsg]
    cases hd : findSyn (stripT t) dateCands with
    | none => rfl
    | some jd =>
      cases hp : findSyn (stripT t) productCands with
      | none => rfl
      | some jp =>
        cases hq : findSyn (stripT t) qtyCands with
        | none => rfl
        | some jq =>
          exfalso
          exact hmiss ((missingList_eq_nil_iff (stripT t)).mpr
            ⟨by rw [hd]; rfl, by rw [hp]; rfl, by rw [hq]; rfl⟩)
  · intro hmiss hpt
    rcases (missingList_eq_nil_iff (stripT t)).mp hmiss with ⟨h1, h2, h3⟩
    rcases Option.isSome_iff_exists.mp h1 with ⟨jd, hjd⟩
    rcases Option.isSome_iff_exists.mp h2 with ⟨jp, hjp⟩
    rcases Option.isSome_iff_exists.mp h3 with ⟨jq, hjq⟩
    simp only [validateMsg]
    rw [hjd, hjp, hjq]
    show (if (!hasPriceOrTotalB (stripT t)) = true
        then some "Missing price or total column"
        else if (!parseGateB (stripT t) jd jq) = true
        then some "Invalid date or quantity format"
        else (none : Option String)) = some "Missing price or total column"
    rw [hpt]
    rfl
  · intro jd jp jq hjd hjp hjq hpt
    constructor
    · intro hg
      simp only [validateMsg]
      rw [hjd, hjp, hjq]
      show (if (!hasPriceOrTotalB (stripT t)) = true
          then some "Missing price or total column"
          else if (!parseGateB (stripT t) jd jq) = true
          then some "Invalid date or quantity format"
          else (none : Option String)) = some "Invalid date or quantity format"
      rw [hpt, hg]
      rfl
    · intro hg
      simp only [validateMsg]
      rw [hjd, hjp, hjq]
      show (if (!hasPriceOrTotalB (stripT t)) = true
          then some "Missing price or total column"
          else if (!parseGateB (stripT t) jd jq) = true
          then some "Invalid date or quantity format"
          else (none : Option String)) = none
      rw [hpt, hg]
      rfl

/-- Witness for C3: Scenario C rejects naming exactly `quantity`. -/
theorem claim_C3_witness :
    validateMsg tMissQ = some "Missing required columns: quantity" := by
  have h := (claim_C3_validator_gate_order tMissQ).1 (by with_unfolding_all decide)
  rw [h]
  with_unfolding_all decide

/-- Claim C9: ingestion is atomic — on any ingestion error the store is
unchanged, and the store grows by exactly the produced upload only when
the whole validation-and-coercion pipeline succeeded. -/
theorem claim_C9_atomic_persistence (t : Table) (store : List Upload) :
    (∀ e, (processUpload store t).2 = Except.error e →
      (processUpload store t).1 = store) ∧
    (∀ u, (processUpload store t).2 = Except.ok u →
      (processUpload store t).1 = store ++ [u] ∧ coreUpload t = Except.ok u) := by
  unfold processUpload
  cases hc : coreUpload t with
  | error e =>
    exact ⟨fun _ _ => rfl, fun u hu => Except.noConfusion hu⟩
  | ok u =>
    refine ⟨fun e he => Except.noConfusion he, fun u' hu => ?_⟩
    cases hu
    exact ⟨rfl, rfl⟩

/-- Witness for C9: a rejected upload leaves an empty store empty. -/
theorem claim_C9_witness :
    (processUpload [] tMissQ).1 = ([] : List Upload) :=
  (claim_C9_atomic_persistence tMissQ []).1
    (UErr.validation "Missing required columns: quantity")
    (by with_unfolding_all decide)

theorem detectCurrency_KSH_iff (hs : List String) :
    detectCurrency hs = Currency.KSH
      ↔ ∃ h0 ∈ hs, containsS "ksh" (lowS h0) = true := by
  unfold detectCurrency
  by_cases hany : hs.any (fun h => containsS "ksh" (lowS h)) = true
  · rw [if_pos hany]
    constructor
    · intro _
      simpa using List.any_eq_true.mp hany
    · intro _
      rfl
  · rw [if_neg hany]
    constructor
    · intro hc
      exact Currency.noConfusion hc
    · intro hex
      exfalso
      apply hany
      rcases hex with ⟨h0, hh, hk⟩
      exact List.any_eq_true.mpr ⟨h0, hh, hk⟩

/-- Claim C4: an accepted table's currency is KSH iff some original header
contains `ksh` case-insensitively, and the currency never depends on the
cell values. -/
theorem claim_C4_currency_header_only {t : Table} {u : Upload}
    (h : coreUpload t = Except.ok u) :
    (u.currency = Currency.KSH
      ↔ ∃ h0 ∈ t.headers, containsS "ksh" (lowS h0) = true) ∧
    (∀ rows' u', coreUpload ⟨t.headers, rows'⟩ = Except.ok u' →
      u'.currency = u.currency) := by
  rcases coreUpload_ok h with ⟨_, _, ds, _, rfl⟩
  constructor
  · show detectCurrency (stripT t).headers = Currency.KSH ↔ _
    rw [detectCurrency_KSH_iff]
    unfold stripT
    simp only [List.mem_map]
    constructor
    · rintro ⟨h0, ⟨a, ha, rfl⟩, hk⟩
      refine ⟨a, ha, ?_⟩
      rw [← containsKsh_strip a]
      exact hk
    · rintro ⟨a, ha, hk⟩
      refine ⟨stripS a, ⟨a, ha, rfl⟩, ?_⟩
      rw [containsKsh_strip a]
      exact hk
  · intro rows' u' h'
    rcases coreUpload_ok h' with ⟨_, _, ds', _, rfl⟩
    rfl

/-- Witness for C4: `Price (KSH)` with all-numeric cells yields KSH. -/
theorem claim_C4_witness :
    ∃ h0 ∈ tKsh.headers, containsS "ksh" (lowS h0) = true := by
  have h : coreUpload tKsh = Except.ok
      ⟨Currency.KSH, [⟨some "2024-01-05", Cell.str "Widget", 3, 10, 30⟩]⟩ := by
    with_unfolding_all decide
  exact ((claim_C4_currency_header_only h).1).mp rfl

/-- Claim C1: when no total-bearing column exists or the parsed totals sum
to zero, every row's total is `quantity * price` (price all zeros when no
price column); otherwise every row's total is the parsed source total. -/
theorem claim_C1_total_kept_or_recomputed {t : Table} {u : Upload}
    (h : coreUpload t = Except.ok u) :
    (totalRecomputeB (t2Of t) →
      ∀ i, i < (t2Of t).rows.length →
        (u.recs.getD i dRec).total
          = (qtyVals (t2Of t)).getD i 0 * (priceVals (t2Of t)).getD i 0) ∧
    (priceColIdx (t2Of t) = none →
      ∀ i, (priceVals (t2Of t)).getD i 0 = 0) ∧
    (¬ totalRecomputeB (t2Of t) →
      ∀ i, i < (t2Of t).rows.length →
        (u.recs.getD i dRec).total = (totalParsedVals (t2Of t)).getD i 0) := by
  rcases coreUpload_ok h with ⟨_, hreq, ds, _, rfl⟩
  refine ⟨?_, ?_, ?_⟩
  · intro hrec i hi
    rw [buildRecs_getD hi]
    show (finalTotals (t2Of t)).getD i 0 = _
    unfold finalTotals
    rw [if_pos hrec]
    rcases qtyColIdx_isSome hreq with ⟨j, hj⟩
    exact getD_zipWith_mul (by rw [length_qtyVals hj]; exact hi)
      (by rw [length_priceVals]; exact hi)
  · intro hnone i
    unfold priceVals
    rw [hnone]
    by_cases hlt : i < (t2Of t).rows.length
    · rw [List.getD_eq_getElem _ _ (by simpa using hlt)]
      simp
    · rw [List.getD_eq_default _ _ (by simpa using Nat.le_of_not_lt hlt)]
  · intro hrec i hi
    rw [buildRecs_getD hi]
    show (finalTotals (t2Of t)).getD i 0 = _
    unfold finalTotals
    rw [if_neg hrec]

/-- Witness for C1: Scenario D keeps the parsed totals `100, 0` (the first
row's recomputed value would have been `120`). -/
theorem claim_C1_witness :
    (uScenD.recs.getD 0 dRec).total = (totalParsedVals (t2Of tScenD)).getD 0 0
    ∧ (totalParsedVals (t2Of tScenD)).getD 0 0 = 100
    ∧ (uScenD.recs.getD 1 dRec).total = (totalParsedVals (t2Of tScenD)).getD 1 0
    ∧ (totalParsedVals (t2Of tScenD)).getD 1 0 = 0 := by
  have h : coreUpload tScenD = Except.ok uScenD := by
    with_unfolding_all decide
  have h3 := (claim_C1_total_kept_or_recomputed h).2.2
  exact ⟨h3 (by with_unfolding_all decide) 0 (by with_unfolding_all decide),
    by with_unfolding_all decide,
    h3 (by with_unfolding_all decide) 1 (by with_unfolding_all decide),
    by with_unfolding_all decide⟩

/-- Claim C2: every accepted table yields one record per row with a
populated total, equal to `quantity * price` whenever no usable source
total existed. -/
theorem claim_C2_total_invariant {t : Table} {u : Upload}
    (h : coreUpload t = Except.ok u) :
    u.recs.length = t.rows.length ∧
    (totalRecomputeB (t2Of t) →
      ∀ i, i < u.recs.length →
        (u.recs.getD i dRec).total
          = (u.recs.getD i dRec).quantity * (u.recs.getD i dRec).price) := by
  rcases coreUpload_ok h with ⟨_, hreq, ds, _, rfl⟩
  constructor
  · exact length_buildRecs (standardize (stripT t)) ds
  · intro hrec i hi
    rw [length_buildRecs] at hi
    rw [buildRecs_getD hi]
    show (finalTotals (t2Of t)).getD i 0
      = (qtyVals (t2Of t)).getD i 0 * (priceVals (t2Of t)).getD i 0
    unfold finalTotals
    rw [if_pos hrec]
    rcases qtyColIdx_isSome hreq with ⟨j, hj⟩
    exact getD_zipWith_mul (by rw [length_qtyVals hj]; exact hi)
      (by rw [length_priceVals]; exact hi)

/-- Witness for C2: Scenario E (all-zero totals) recomputes
`total = quantity * price` on both records. -/
theorem claim_C2_witness :
    (uScenE.recs.getD 0 dRec).total
      = (uScenE.recs.getD 0 dRec).quantity * (uScenE.recs.getD 0 dRec).price
    ∧ (uScenE.recs.getD 0 dRec).total = 100 := by
  have h : coreUpload tScenE = Except.ok uScenE := by
    with_unfolding_all decide
  exact ⟨(claim_C2_total_invariant h).2 (by with_unfolding_all decide) 0
      (by with_unfolding_all decide),
    by with_unfolding_all decide⟩

/-- The transformation claim C5 literally describes: strip only the
leading run of `$` and `,` characters, then parse (unparseable or NaN
gives 0 after `fillna`).  Modelled from the claim's words, for
comparison with `moneyCoerce` from the source. -/
def leadStripMoney (c : Cell) : Option ℚ :=
  match c with
  | .blank => none
  | .num q => some q
  | .str s =>
    match parseNumS ⟨s.data.dropWhile (fun c => c == '$' || c == ',')⟩ with
    | some (some q) => some q
    | _ => none

/-- Counterexample for C5: the code removes every `$` and `,` (the cell
`1,234$` parses to `1234`), while stripping only leading characters would
leave `1,234$` unparseable and coerce it to `0`. -/
theorem claim_C5_counterexample :
    coreUpload tComma = Except.ok uComma
    ∧ (uComma.recs.getD 0 dRec).price = 1234
    ∧ (leadStripMoney (Cell.str "1,234$")).getD 0 = 0
    ∧ (1234 : ℚ) ≠ 0 := by
  with_unfolding_all decide

/-- Claim C5 (amended): price and total cells are transformed by removing
every `$` and `,` character occurring anywhere in the cell and then
parsing, with unparseable results mapped to 0. -/
theorem claim_C5_strip_all_amended {t : Table} {u : Upload}
    (h : coreUpload t = Except.ok u) :
    (∀ j, priceColIdx (t2Of t) = some j →
      ∀ i, i < (t2Of t).rows.length →
        (u.recs.getD i dRec).price
          = (moneyCoerce ((colCells (t2Of t) j).getD i Cell.blank)).getD 0) ∧
    (∀ j, totalColIdx (t2Of t) = some j →
      ∀ i, i < (t2Of t).rows.length →
        (totalParsedVals (t2Of t)).getD i 0
          = (moneyCoerce ((colCells (t2Of t) j).getD i Cell.blank)).getD 0) := by
  rcases coreUpload_ok h with ⟨_, _, ds, _, rfl⟩
  constructor
  · intro j hj i hi
    rw [buildRecs_getD hi]
    show (priceVals (t2Of t)).getD i 0 = _
    unfold priceVals
    rw [hj]
    exact getD_map_col _ hi
  · intro j hj i hi
    unfold totalParsedVals
    rw [hj]
    exact getD_map_col _ hi

/-- Witness for the amended C5 on Scenario D's price column. -/
theorem claim_C5_witness :
    (uScenD.recs.getD 0 dRec).price
      = (moneyCoerce ((colCells (t2Of tScenD) 3).getD 0 Cell.blank)).getD 0
    ∧ (uScenD.recs.getD 0 dRec).price = 60 := by
  have h : coreUpload tScenD = Except.ok uScenD := by
    with_unfolding_all decide
  exact ⟨(claim_C5_strip_all_amended h).1 3 (by with_unfolding_all decide) 0
      (by with_unfolding_all decide),
    by with_unfolding_all decide⟩

/-- Counterexample for C10: a blank quantity cell passes the validator's
`errors='raise'` numeric check (NaN passes through), yet its coerced
record quantity is the fallback `0` — not the numeric parse of the cell,
which yields no number. -/
theorem claim_C10_counterexample :
    validateMsg (stripT tBlankQ) = none
    ∧ coreUpload tBlankQ = Except.ok uBlankQ
    ∧ (uBlankQ.recs.getD 0 dRec).quantity = 0
    ∧ numCoerce Cell.blank = none
    ∧ numRaiseOkB Cell.blank = true
    ∧ (colCells (t2Of tBlankQ) 2).getD 0 Cell.blank = Cell.blank := by
  with_unfolding_all decide

/-- Claim C10 (amended): on a validated table every quantity cell passes
the raise-mode numeric check (so blanks/NaNs are the only cells the
validator lets through without a numeric value), and a record's quantity
equals the cell's numeric parse whenever that parse yields a number; the
coerce-to-0 fallback fires exactly on the NaN parses. -/
theorem claim_C10_quantity_fallback_amended {t : Table} {u : Upload}
    (h : coreUpload t = Except.ok u) :
    ∀ j, qtyColIdx (t2Of t) = some j →
      ∀ i, i < (t2Of t).rows.length →
        (∀ q, numCoerce ((colCells (t2Of t) j).getD i Cell.blank) = some q →
          (u.recs.getD i dRec).quantity = q) ∧
        (numCoerce ((colCells (t2Of t) j).getD i Cell.blank) = none →
          (u.recs.getD i dRec).quantity = 0) ∧
        numRaiseOkB ((colCells (t2Of t) j).getD i Cell.blank) = true := by
  have hcore := h
  rcases coreUpload_ok h with ⟨hval, hreq, ds, hds, rfl⟩
  intro j hj i hi
  have hclose : ∀ v, (qtyVals (t2Of t)).getD i 0 = v →
      ((buildRecs (standardize (stripT t)) ds).getD i dRec).quantity = v := by
    intro v hv
    rw [buildRecs_getD hi]
    exact hv
  refine ⟨?_, ?_, ?_⟩
  · intro q hq
    apply hclose
    unfold qtyVals
    rw [hj, getD_map_col _ hi, hq]
    rfl
  · intro hq
    apply hclose
    unfold qtyVals
    rw [hj, getD_map_col _ hi, hq]
    rfl
  · rcases validateMsg_none hval with ⟨jd, jp, jq, _, _, hjq, _, hg⟩
    have halign := findSyn_qty_eq_qtyColIdx (stripT t)
    rw [halign] at hjq
    have hjj : j = jq := by
      have := hj.symm.trans hjq
      exact (Option.some.injEq _ _).mp this
    subst hjj
    unfold parseGateB at hg
    rw [Bool.and_eq_true] at hg
    rcases hg with ⟨_, hq⟩
    have hq' : (colCells (t2Of t) j).all numRaiseOkB = true := hq
    have hmem : (colCells (t2Of t) j).getD i Cell.blank ∈ colCells (t2Of t) j := by
      have hlen : i < (colCells (t2Of t) j).length := by
        rw [length_colCells]
        exact hi
      rw [List.getD_eq_getElem _ _ hlen]
      exact List.getElem_mem hlen
    exact List.all_eq_true.mp hq' _ hmem

/-- Witness for the amended C10: on Scenario D every quantity parses and
row 0's record quantity is the exact parse `2`. -/
theorem claim_C10_witness :
    (uScenD.recs.getD 0 dRec).quantity = 2
    ∧ numRaiseOkB ((colCells (t2Of tScenD) 2).getD 0 Cell.blank) = true := by
  have h : coreUpload tScenD = Except.ok uScenD := by
    with_unfolding_all decide
  have h10 := claim_C10_quantity_fallback_amended h 2
    (by with_unfolding_all decide) 0 (by with_unfolding_all decide)
  exact ⟨h10.1 2 (by with_unfolding_all decide), h10.2.2⟩

/-! ### Aggregator claims -/

theorem sum_salesByProduct (rs : List CRec) :
    ((salesByProduct rs).map Prod.snd).sum
      = ((chartRecs rs).map CRec.total).sum := by
  unfold salesByProduct groupSumSorted
  rw [sum_sortB_snd, sum_groupPairs, List.map_map]
  rfl

theorem sum_monthlySales (rs : List CRec) :
    ((monthlySales rs).map Prod.snd).sum
      = ((chartRecs rs).map CRec.total).sum := by
  unfold monthlySales
  rw [sum_sortB_snd, sum_groupPairs, List.map_map]
  rfl

theorem chartRecs_totals_of_not_all_zero {rs : List CRec}
    (h : rs.all (fun r => r.total == 0) = false) :
    (chartRecs rs).map CRec.total = rs.map CRec.total := by
  unfold chartRecs
  rw [if_neg (by simp [h])]

theorem chartRecs_totals_of_all_zero {rs : List CRec}
    (h : rs.all (fun r => r.total == 0) = true) :
    (chartRecs rs).map CRec.total
      = rs.map (fun r => r.quantity * r.price) := by
  unfold chartRecs
  rw [if_pos h, List.map_map]
  rfl

/-- A single record with total 0 but quantity 2 and price 50. -/
def rsC7 : List CRec := [⟨⟨2024, 1, 5⟩, "A", 2, 50, 0⟩]

/-- Counterexample for C7: on an all-zero-total record sequence the chart
recompute (line 140) makes the per-product revenue sum 100 while the grand
total of the records' total field is 0. -/
theorem claim_C7_counterexample :
    ((salesByProduct rsC7).map Prod.snd).sum = 100
    ∧ (rsC7.map CRec.total).sum = 0
    ∧ ((salesByProduct rsC7).map Prod.snd).sum ≠ (rsC7.map CRec.total).sum := by
  with_unfolding_all decide

/-- Claim C7 (amended): the per-product and per-month revenue sums always
agree with each other; both equal the grand total of the records' total
field whenever some record's total is nonzero, and equal the
`quantity * price` sum when every stored total is zero (the line-140
recompute). -/
theorem claim_C7_sums_amended (rs : List CRec) :
    ((salesByProduct rs).map Prod.snd).sum
      = ((monthlySales rs).map Prod.snd).sum
    ∧ (rs.all (fun r => r.total == 0) = false →
        ((salesByProduct rs).map Prod.snd).sum = (rs.map CRec.total).sum)
    ∧ (rs.all (fun r => r.total == 0) = true →
        ((salesByProduct rs).map Prod.snd).sum
          = (rs.map (fun r => r.quantity * r.price)).sum) := by
  refine ⟨?_, ?_, ?_⟩
  · rw [sum_salesByProduct, sum_monthlySales]
  · intro h
    rw [sum_salesByProduct, chartRecs_totals_of_not_all_zero h]
  · intro h
    rw [sum_salesByProduct, chartRecs_totals_of_all_zero h]

/-- Two records with nonzero totals over two months. -/
def rsC7w : List CRec :=
  [⟨⟨2024, 1, 5⟩, "A", 2, 50, 70⟩, ⟨⟨2024, 2, 6⟩, "B", 1, 3, 30⟩]

/-- Witness for the amended C7. -/
theorem claim_C7_witness :
    ((salesByProduct rsC7w).map Prod.snd).sum
      = ((monthlySales rsC7w).map Prod.snd).sum
    ∧ ((salesByProduct rsC7w).map Prod.snd).sum = (rsC7w.map CRec.total).sum
    ∧ (rsC7w.map CRec.total).sum = 100 := by
  have h := claim_C7_sums_amended rsC7w
  exact ⟨h.1, h.2.1 (by with_unfolding_all decide), by with_unfolding_all decide⟩

/-- A single Friday record with total 0 but quantity 3 and price 10. -/
def rsC8 : List CRec := [⟨⟨2024, 1, 5⟩, "B", 3, 10, 0⟩]

/-- Counterexample for C8: with all stored totals zero the recompute
fires, so the Friday entry shows 30 while the sum of the records' total
field on Friday is 0 — the view is not the weekday-grouped sum of the
total field. -/
theorem claim_C8_counterexample :
    weekdaySales rsC8 ≠ weekOrder.map (fun w =>
      (w, ((rsC8.filter (fun r => decide (dayNameOf r.date = w))).map
        CRec.total).sum))
    ∧ (weekdaySales rsC8).lookup "Friday" = some 30
    ∧ ((rsC8.filter (fun r => decide (dayNameOf r.date = "Friday"))).map
        CRec.total).sum = 0 := by
  with_unfolding_all decide

/-- Claim C8 (amended): the weekday view always has exactly seven entries
in the fixed order Monday..Sunday, each entry being the sum of the
effective totals (the records' totals, or `quantity * price` when every
stored total is zero) over the records falling on that weekday — hence 0
for weekdays with no records. -/
theorem claim_C8_weekday_amended (rs : List CRec) :
    (weekdaySales rs).length = 7
    ∧ (weekdaySales rs).map Prod.fst = weekOrder
    ∧ weekdaySales rs = weekOrder.map (fun w =>
        (w, (((chartRecs rs).filter
          (fun r => decide (dayNameOf r.date = w))).map CRec.total).sum)) := by
  refine ⟨?_, ?_, ?_⟩
  · simp [weekdaySales, weekOrder]
  · simp only [weekdaySales]
    rw [List.map_map]
    rfl
  · simp only [weekdaySales]
    apply List.map_congr_left
    intro w _
    rw [lookup_groupSumSorted, keySum_map_pairs]

/-! ### Claim C6: top products by quantity -/

/-- The pair list the top-quantity view groups over. -/
def qtyPairsOf (rs : List CRec) : List (String × ℚ) :=
  (chartRecs rs).map (fun r => (r.product, r.quantity))

/-- The top-quantity view claim C6 literally describes: group the summed
quantities in first-encounter (source-row) order, stable-sort descending,
take 8.  Modelled from the claim's words, for comparison with
`topProductsQty` from the source. -/
def claimTopQty (rs : List CRec) : List (String × ℚ) :=
  (sortB (fun a b => decide (b.2 ≤ a.2))
    (groupPairs (rs.map (fun r => (r.product, r.quantity))))).take 8

/-- Two products tied on quantity, source order `a` then `b`. -/
def rsC6 : List CRec :=
  [⟨⟨2024, 1, 5⟩, "a", 5, 1, 1⟩, ⟨⟨2024, 1, 5⟩, "b", 5, 1, 1⟩]

/-- Counterexample for C6: pandas groups the products alphabetically and,
with at most 8 groups, sorts the series ascending and reverses it, so the
tie comes out `b` before `a` — not the claimed first-encountered source
order `a` before `b`. -/
theorem claim_C6_counterexample :
    topProductsQty rsC6 = [("b", 5), ("a", 5)]
    ∧ claimTopQty rsC6 = [("a", 5), ("b", 5)]
    ∧ topProductsQty rsC6 ≠ claimTopQty rsC6 := by
  with_unfolding_all decide

/-- Claim C6 (amended): the view holds the products with the 8 largest
summed quantities, each entry carrying its product's exact quantity sum,
in descending order of summed quantity; ties are broken by product name —
descending when at most 8 distinct products exist (pandas sorts ascending
and reverses), ascending when more than 8 exist (stable mergesort over the
alphabetically grouped series) — never by source-row encounter order. -/
theorem claim_C6_top_products_amended (rs : List CRec) :
    (topProductsQty rs).length = min 8 (keysOf (qtyPairsOf rs)).length
    ∧ (∀ pr ∈ topProductsQty rs,
        pr.1 ∈ keysOf (qtyPairsOf rs) ∧ pr.2 = keySum (qtyPairsOf rs) pr.1)
    ∧ ((keysOf (qtyPairsOf rs)).length ≤ 8 →
        (∀ k ∈ keysOf (qtyPairsOf rs), ∃ pr ∈ topProductsQty rs, pr.1 = k)
        ∧ (topProductsQty rs).Pairwise
            (fun a b => b.2 < a.2 ∨ (b.2 = a.2 ∧ sLt b.1 a.1)))
    ∧ (8 < (keysOf (qtyPairsOf rs)).length →
        (topProductsQty rs).Pairwise
            (fun a b => b.2 < a.2 ∨ (a.2 = b.2 ∧ sLt a.1 b.1))
        ∧ ∀ k ∈ keysOf (qtyPairsOf rs),
            (∀ pr ∈ topProductsQty rs, pr.1 ≠ k) →
            ∀ pr ∈ topProductsQty rs,
              keySum (qtyPairsOf rs) k < pr.2
              ∨ (keySum (qtyPairsOf rs) k = pr.2 ∧ sLt pr.1 k)) := by
  have hS0p : (groupSumSorted (qtyPairsOf rs)).Pairwise
      (fun a b => sLt a.1 b.1) := groupSumSorted_pairwise _
  have hlenS0 : (groupSumSorted (qtyPairsOf rs)).length
      = (keysOf (qtyPairsOf rs)).length := length_groupSumSorted _
  have htop : topProductsQty rs
      = nlargestQ 8 (groupSumSorted (qtyPairsOf rs)) := rfl
  by_cases hc : (groupSumSorted (qtyPairsOf rs)).length ≤ 8
  · -- pandas' n ≥ len path: ascending sort, then reverse; take is a no-op
    have hvfull : topProductsQty rs
        = (sortB (fun a b => decide (a.2 ≤ b.2))
            (groupSumSorted (qtyPairsOf rs))).reverse := by
      rw [htop]
      unfold nlargestQ
      rw [if_pos hc]
      apply List.take_of_length_le
      rw [List.length_reverse, length_sortB]
      exact hc
    have hmemv : ∀ pr : String × ℚ, pr ∈ topProductsQty rs
        ↔ pr ∈ groupSumSorted (qtyPairsOf rs) := by
      intro pr
      rw [hvfull, List.mem_reverse, mem_sortB]
    have hpairrev : (topProductsQty rs).Pairwise
        (fun a b => b.2 < a.2 ∨ (b.2 = a.2 ∧ sLt b.1 a.1)) := by
      rw [hvfull]
      apply List.pairwise_reverse.mpr
      exact @sortB_pairwise_key (String × ℚ) Prod.snd
        (fun a b => sLt a.1 b.1) (groupSumSorted (qtyPairsOf rs)) hS0p
    refine ⟨?_, ?_, fun _ => ⟨?_, hpairrev⟩, fun h8 => absurd h8 (by omega)⟩
    · rw [hvfull, List.length_reverse, length_sortB, hlenS0]
      omega
    · intro pr hpr
      have hmem := (hmemv pr).mp hpr
      exact ⟨(groupSumSorted_mem.mp hmem).1, (groupSumSorted_mem.mp hmem).2⟩
    · intro k hk
      exact ⟨(k, keySum (qtyPairsOf rs) k),
        (hmemv _).mpr (groupSumSorted_mem.mpr ⟨hk, rfl⟩), rfl⟩
  · -- pandas' n < len path: stable mergesort descending, truncate
    have hv : topProductsQty rs
        = (sortB (fun a b => decide (b.2 ≤ a.2))
            (groupSumSorted (qtyPairsOf rs))).take 8 := by
      rw [htop]
      unfold nlargestQ
      rw [if_neg hc]
    have hfe : (fun a b : String × ℚ => decide (b.2 ≤ a.2))
        = (fun a b : String × ℚ => decide ((-a.2) ≤ (-b.2))) := by
      funext a b
      exact decide_eq_decide.mpr ⟨fun hh => by linarith, fun hh => by linarith⟩
    have hpair : (sortB (fun a b : String × ℚ => decide (b.2 ≤ a.2))
        (groupSumSorted (qtyPairsOf rs))).Pairwise
        (fun a b => b.2 < a.2 ∨ (a.2 = b.2 ∧ sLt a.1 b.1)) := by
      rw [hfe]
      have hk := @sortB_pairwise_key (String × ℚ) (fun p => -p.2)
        (fun a b => sLt a.1 b.1) (groupSumSorted (qtyPairsOf rs)) hS0p
      refine hk.imp ?_
      intro a b hab
      rcases hab with h1 | ⟨h1, h2⟩
      · have h1' : -a.2 < -b.2 := h1
        left
        linarith
      · have h1' : -a.2 = -b.2 := h1
        right
        refine ⟨by linarith, h2⟩
    refine ⟨?_, ?_, fun hk8 => absurd hk8 (by omega), fun _ => ⟨?_, ?_⟩⟩
    · rw [hv, List.length_take, length_sortB, hlenS0]
    · intro pr hpr
      rw [hv] at hpr
      have hmem : pr ∈ groupSumSorted (qtyPairsOf rs) := by
        rw [← mem_sortB]
        exact (List.take_sublist _ _).subset hpr
      exact ⟨(groupSumSorted_mem.mp hmem).1, (groupSumSorted_mem.mp hmem).2⟩
    · rw [hv]
      exact List.Pairwise.sublist (List.take_sublist _ _) hpair
    · intro k hk hknot pr hpr
      have hmemS : (k, keySum (qtyPairsOf rs) k)
          ∈ sortB (fun a b : String × ℚ => decide (b.2 ≤ a.2))
            (groupSumSorted (qtyPairsOf rs)) := by
        rw [mem_sortB]
        exact groupSumSorted_mem.mpr ⟨hk, rfl⟩
      have hsplit := List.take_append_drop 8
        (sortB (fun a b : String × ℚ => decide (b.2 ≤ a.2))
          (groupSumSorted (qtyPairsOf rs)))
      have hpair8 := hpair
      rw [← hsplit] at hpair8
      rcases List.pairwise_append.mp hpair8 with ⟨_, _, hcross⟩
      rw [← hsplit] at hmemS
      rcases List.mem_append.mp hmemS with hmem1 | hmem2
      · exfalso
        have hmemtop : (k, keySum (qtyPairsOf rs) k) ∈ topProductsQty rs := by
          rw [hv]
          exact hmem1
        exact hknot _ hmemtop rfl
      · have hr := hcross pr (by rw [← hv]; exact hpr) _ hmem2
        rcases hr with h1 | ⟨h1, h2⟩
        · left
          exact h1
        · right
          exact ⟨h1.symm, h2⟩

/-- Two products with distinct quantities. -/
def rsC6w : List CRec :=
  [⟨⟨2024, 1, 5⟩, "x", 2, 1, 1⟩, ⟨⟨2024, 1, 5⟩, "y", 7, 1, 1⟩]

/-- Witness for the amended C6. -/
theorem claim_C6_witness :
    (topProductsQty rsC6w).length = 2
    ∧ (∃ pr ∈ topProductsQty rsC6w, pr.1 = "x")
    ∧ (topProductsQty rsC6w).Pairwise
        (fun a b => b.2 < a.2 ∨ (b.2 = a.2 ∧ sLt b.1 a.1)) := by
  have h := claim_C6_top_products_amended rsC6w
  refine ⟨?_, ?_, ?_⟩
  · rw [h.1]
    with_unfolding_all decide
  · exact (h.2.2.1 (by with_unfolding_all decide)).1 "x"
      (by with_unfolding_all decide)
  · exact (h.2.2.1 (by with_unfolding_all decide)).2

end SalesDash
